import Mathlib

/-!
Shallow embedding of the incremental build core of the `trip` build
orchestrator: content stores, the destination sync engine (diff, write,
delete, empty-parent cleanup), the waypoint pipeline runner, the source
watcher event handlers, and the automator build/start state machine.

Byte buffers are modelled as lists of naturals, content stores as
association lists with string keys (mirroring `Immutable.Map` with `Buffer`
values, whose deep equality compares key sets and byte contents), and disk
effects as explicit lists of operations.
-/

abbrev Bytes := List Nat

/-- Association-list lookup, first match wins (models `Immutable.Map#get`
and plain-object indexing). -/
def assocGet {α : Type} : List (String × α) → String → Option α
  | [], _ => none
  | (k, v) :: rest, f => if k = f then some v else assocGet rest f

/-- Association-list removal of a key (models `Immutable.Map#remove` /
`delete obj[k]`). -/
def assocRemove {α : Type} (m : List (String × α)) (f : String) : List (String × α) :=
  m.filter (fun e => e.1 ≠ f)

/-- Association-list update of a key (models `Immutable.Map#set` /
`obj[k] = v`). -/
def assocSet {α : Type} (m : List (String × α)) (f : String) (v : α) : List (String × α) :=
  if (assocGet m f).isSome then m.map (fun e => if e.1 = f then (f, v) else e)
  else m ++ [(f, v)]

/-- A content store: relative file path to byte contents, as produced by
`Directory.prime` and passed between waypoints and `Destination.update`. -/
abbrev ContentStore := List (String × Bytes)

def storeGet (m : ContentStore) (f : String) : Option Bytes := assocGet m f

def storeHas (m : ContentStore) (f : String) : Bool := (storeGet m f).isSome

def storeKeys (m : ContentStore) : List String := m.map Prod.fst

/-- Total byte size of a store's contents (the `size` bookkeeping value). -/
def storeSum (m : ContentStore) : Nat := (m.map (fun e => e.2.length)).sum

/-- Deep equality of stores as by `Immutable.Map#equals` with `Buffer`
values: same key set and byte-identical content per key. -/
def storeEquals (a b : ContentStore) : Bool :=
  (storeKeys a).all (fun k => storeGet b k == storeGet a k) &&
  (storeKeys b).all (fun k => storeGet a k == storeGet b k)

/-- A change record as built by `new Change({file, contents, oldContents})`. -/
structure Change where
  file : String
  contents : Option Bytes
  oldContents : Option Bytes
deriving DecidableEq, Repr

/-- Kind of a change, per the `Change` constructor: contents present means
add or modify (depending on old contents), otherwise delete. -/
def Change.type (c : Change) : String :=
  match c.contents with
  | some _ => match c.oldContents with
    | some _ => "modify"
    | none => "add"
  | none => "delete"

/-- One disk side effect issued by `Destination.update`. -/
inductive DiskOp where
  | write (file : String) (contents : Bytes)
  | trash (file : String)
  | unlink (file : String)
deriving DecidableEq, Repr

/-- File path named by a disk operation. -/
def DiskOp.file : DiskOp → String
  | .write f _ => f
  | .trash f => f
  | .unlink f => f

/-- Destination directory state: root path plus the primed in-memory store. -/
structure Destination where
  dir : String
  files : ContentStore
deriving Repr

/-- Per-entry write decision of `Destination.update`: a new-store entry is
written when its content is absent from or differs from the old store. -/
def writeChange (oldFiles : ContentStore) (e : String × Bytes) : Option Change :=
  match storeGet oldFiles e.1 with
  | none => some ⟨e.1, some e.2, none⟩
  | some oldC => if e.2 = oldC then none else some ⟨e.1, some e.2, some oldC⟩

/-- Per-entry delete decision of `Destination.update`: an old-store entry is
deleted when its path is absent from the new store. -/
def deleteChange (newFiles : ContentStore) (e : String × Bytes) : Option Change :=
  if storeHas newFiles e.1 then none else some ⟨e.1, none, some e.2⟩

/-- The sync engine `Destination#update(newFiles, safeDelete)`: fast path on
deep equality (returning before the stored map is replaced), otherwise the
write set and delete set with their disk operations, returning writes
followed by deletions. -/
def Destination.update (d : Destination) (newFiles : ContentStore) (safeDelete : Bool) :
    Destination × List Change × List DiskOp :=
  if storeEquals d.files newFiles then (d, [], [])
  else
    let oldFiles := d.files
    let writes := newFiles.filterMap (writeChange oldFiles)
    let deletions := oldFiles.filterMap (deleteChange newFiles)
    let writeOps := writes.map (fun c => DiskOp.write c.file (c.contents.getD []))
    let deleteOps := deletions.map (fun c =>
      if safeDelete then DiskOp.trash c.file else DiskOp.unlink c.file)
    (⟨d.dir, newFiles⟩, writes ++ deletions, writeOps ++ deleteOps)

/-- A resolved absolute path, as a list of segments. -/
abbrev FsPath := List String

/-- Modelled after the npm `subdir` dependency (not vendored in the
repository): whether `child` resolves at or beneath `parent`; the spec's
phrase is "must resolve within the configured working root". Every use in
the embedded code pairs it with an explicit equality test, so only the
strict-containment part matters to the sync-engine walk. -/
def subdir (parent child : FsPath) : Bool := parent.isPrefixOf child

/-- Directory-tree state for the empty-parent cleanup: the sets of existing
directories and files on disk under consideration. -/
structure FileSystem where
  dirs : List FsPath
  files : List FsPath
deriving DecidableEq, Repr

def FileSystem.entries (fs : FileSystem) : List FsPath := fs.dirs ++ fs.files

/-- Errors surfaced by `rmdir`: directory not empty, or no such directory. -/
inductive FsError where
  | enotempty
  | enoent
deriving DecidableEq, Repr

/-- Whether directory `d` has any entry strictly beneath it. -/
def FileSystem.nonempty (fs : FileSystem) (d : FsPath) : Bool :=
  fs.entries.any (fun e => d.isPrefixOf e && e ≠ d)

/-- Model of `sander.rmdir`: fails with `ENOENT` when the directory does not
exist, `ENOTEMPTY` when it still has entries, otherwise removes it. -/
def FileSystem.rmdir (fs : FileSystem) (d : FsPath) : Except FsError FileSystem :=
  if d ∈ fs.dirs then
    if fs.nonempty d then .error .enotempty
    else .ok ⟨fs.dirs.filter (fun x => x ≠ d), fs.files⟩
  else .error .enoent

/-- The `deleteEmptyParents(file, until)` walk of `Destination.js`: stop when
`file` equals or escapes `until`; otherwise `rmdir` the parent directory and
recurse from it, swallowing `ENOTEMPTY` and propagating any other error. -/
def deleteEmptyParents (fs : FileSystem) (file til : FsPath) : Except FsError FileSystem :=
  if til = file ∨ subdir til file = false then .ok fs
  else
    match fs.rmdir file.dropLast with
    | .ok fs2 =>
      match deleteEmptyParents fs2 file.dropLast til with
      | .error .enotempty => .ok fs2
      | r => r
    | .error .enotempty => .ok fs
    | .error e => .error e
termination_by file.length
decreasing_by
  simp only [not_or, Bool.not_eq_false] at *
  rename_i h
  obtain ⟨hne, hsub⟩ := h
  have hpre : til <+: file := by
    simpa [subdir, List.isPrefixOf_iff_prefix] using hsub
  have hlen : 0 < file.length := by
    rcases file with _ | ⟨a, rest⟩
    · exact absurd (List.prefix_nil.mp hpre) (fun h2 => hne (h2 ▸ rfl))
    · simp
  simpa [List.length_dropLast] using Nat.sub_lt hlen Nat.one_pos

/-- A byte buffer with object identity: `id` distinguishes physically
distinct `Buffer` objects that may hold equal bytes. -/
structure Buf where
  id : Nat
  bytes : Bytes
deriving DecidableEq, Repr

/-- A store holding identified buffers, as passed between waypoints. -/
abbrev BufStore := List (String × Buf)

/-- Byte-level view of a buffer store, as compared by the sync engine. -/
def stripIds (m : BufStore) : ContentStore := m.map (fun e => (e.1, e.2.bytes))

/-- UTF-8 bytes of a string, for `new Buffer(string)`. -/
def utf8 (s : String) : Bytes := s.toUTF8.toList.map (fun b => b.toNat)

/-- A raw value found in a waypoint's returned map before normalisation:
an existing buffer, a string, or anything else (invalid). -/
inductive RawVal where
  | buf (b : Buf)
  | str (s : String)
  | other
deriving Repr

/-- Bytes a raw value normalises to, when it is valid. -/
def rawBytes : RawVal → Option Bytes
  | .buf b => some b.bytes
  | .str s => some (utf8 s)
  | .other => none

/-- Errors of one pipeline step: waypoint output is not a map (the
`Immutable.Map.isMap` assertion), an entry is neither buffer nor string
(the `TypeError`), or the waypoint itself threw or rejected. -/
inductive WaypointError where
  | invalidOutput
  | invalidContentType
  | raised
deriving DecidableEq, Repr

/-- Normalisation of one returned entry (build step of `Automator.js`):
strings become fresh buffers, non-buffer non-string values fail, and when
the resulting bytes equal the pre-waypoint content at that path the old
buffer object is kept. `fresh` supplies identities for new buffers. -/
def normalizeValue (input : BufStore) (file : String) (v : RawVal) (fresh : Nat) :
    Except WaypointError (Buf × Nat) :=
  match v with
  | .other => .error .invalidContentType
  | .str s =>
    let c : Buf := ⟨fresh, utf8 s⟩
    match assocGet input file with
    | some oldC => if oldC.bytes = c.bytes then .ok (oldC, fresh + 1) else .ok (c, fresh + 1)
    | none => .ok (c, fresh + 1)
  | .buf b =>
    match assocGet input file with
    | some oldC => if oldC.bytes = b.bytes then .ok (oldC, fresh) else .ok (b, fresh)
    | none => .ok (b, fresh)

/-- Normalisation of a waypoint's returned entries, in order. -/
def normalizeEntries (input : BufStore) : List (String × RawVal) → Nat →
    Except WaypointError (BufStore × Nat)
  | [], fresh => .ok ([], fresh)
  | (file, v) :: rest, fresh =>
    match normalizeValue input file v fresh with
    | .error e => .error e
    | .ok (b, fresh2) =>
      match normalizeEntries input rest fresh2 with
      | .error e => .error e
      | .ok (tail, fresh3) => .ok ((file, b) :: tail, fresh3)

/-- Possible outcomes of invoking one waypoint function: it returned its
input map unchanged (reference-identical), returned a fresh map of raw
entries, returned something that is not a map, or threw/rejected. -/
inductive WaypointRet where
  | same
  | fresh (entries : List (String × RawVal))
  | nonMap
  | raise

/-- A waypoint: a named transform over the current buffer store. -/
structure Waypoint where
  name : String
  fn : BufStore → WaypointRet

/-- Input/output record of one pipeline step. -/
structure Step where
  input : BufStore
  output : BufStore
deriving DecidableEq, Repr

/-- One iteration of the waypoint loop in `build`: invoke the waypoint,
validate that the result is a map, normalise it unless it is
reference-identical to the input, and tag any failure with the waypoint's
name. -/
def runWaypoint (w : Waypoint) (input : BufStore) (fresh : Nat) :
    Except (String × WaypointError) (BufStore × Nat) :=
  match w.fn input with
  | .raise => .error (w.name, .raised)
  | .nonMap => .error (w.name, .invalidOutput)
  | .same => .ok (input, fresh)
  | .fresh entries =>
    match normalizeEntries input entries fresh with
    | .error e => .error (w.name, e)
    | .ok (out, fresh2) => .ok (out, fresh2)

/-- The full waypoint loop: each step feeds the next, recording steps; the
first failure aborts the remainder of the pipeline. -/
def runWaypoints : List Waypoint → BufStore → Nat →
    Except (String × WaypointError) (BufStore × List Step × Nat)
  | [], input, fresh => .ok (input, [], fresh)
  | w :: rest, input, fresh =>
    match runWaypoint w input fresh with
    | .error e => .error e
    | .ok (out, fresh2) =>
      match runWaypoints rest out fresh2 with
      | .error e => .error e
      | .ok (fin, steps, fresh3) => .ok (fin, ⟨input, out⟩ :: steps, fresh3)

/-- Source watcher state: the primed store, its running byte total, the
byte limit, and the per-path last-touch timestamps. -/
structure SourceState where
  files : ContentStore
  size : Int
  limit : Int
  lastTouched : List (String × Nat)
deriving Repr

/-- Error raised by the watch handler when the byte limit is exceeded. -/
inductive SourceError where
  | sizeLimitExceeded
deriving DecidableEq, Repr

/-- Milliseconds since the path was last touched, zero when never touched
(the `timeSinceLastTouch` computation of `Source.js`). -/
def timeSinceTouch (st : SourceState) (file : String) (now : Nat) : Nat :=
  match assocGet st.lastTouched file with
  | some t => now - t
  | none => 0

/-- The watcher's delete-event handler: drop the path from the store and
byte total when tracked, clear its last-touch record, and always report an
`updated` emission (the returned flag). -/
def handleDelete (st : SourceState) (file : String) : SourceState × Bool :=
  let newFiles := assocRemove st.files file
  let st2 :=
    if storeEquals st.files newFiles then st
    else
      let contents := (storeGet st.files file).getD []
      { st with size := st.size - contents.length, files := newFiles }
  ({ st2 with lastTouched := assocRemove st2.lastTouched file }, true)

/-- The watcher's add/modify handler when the re-read failed with `ENOENT`:
drop the path from the store (only) and report an `updated` emission. -/
def handleMissing (st : SourceState) (file : String) : SourceState × Bool :=
  ({ st with files := assocRemove st.files file }, true)

/-- The watcher's add/modify handler when the re-read succeeded: record the
touch time, and when the bytes changed update the byte total (failing when
it exceeds the limit) and the store; the flag reports whether `updated` is
emitted — always on change, and on an identical re-touch only when the gap
since the last touch exceeds 250ms. -/
def handleWrite (st : SourceState) (file : String) (contents : Bytes) (now : Nat) :
    SourceState × Except SourceError Bool :=
  let timeSince := timeSinceTouch st file now
  let st1 := { st with lastTouched := assocSet st.lastTouched file now }
  let oldContents := storeGet st1.files file
  if oldContents ≠ some contents then
    let oldLen : Int := match oldContents with | some o => o.length | none => 0
    let size2 := st1.size - oldLen + contents.length
    if size2 > st1.limit then
      ({ st1 with size := size2 }, .error .sizeLimitExceeded)
    else
      ({ st1 with size := size2, files := assocSet st1.files file contents }, .ok true)
  else
    (st1, .ok (decide (timeSince > 250)))

/-- One step of `loadDirectory` of `Directory.js` over the files the walk
visits: accumulate contents and byte size, failing fast on the limit. -/
def loadDirAux : List (String × Bytes) → ContentStore → Int → Int →
    Except SourceError (ContentStore × Int)
  | [], acc, size, _ => .ok (acc, size)
  | (f, c) :: rest, acc, size, limit =>
    let size2 := size + c.length
    if size2 > limit then .error .sizeLimitExceeded
    else loadDirAux rest (assocSet acc f c) size2 limit

/-- `loadDirectory(dir, filter, limit)`, given the matched files the
recursive walk reads, in walk order. -/
def loadDirectory (entries : List (String × Bytes)) (limit : Int) :
    Except SourceError (ContentStore × Int) :=
  loadDirAux entries [] 0 limit

/-- The invariant relating a source's byte total to its store. -/
def sizeInvariant (st : SourceState) : Prop := st.size = (storeSum st.files : Int)

/-- Build-level errors: the concurrent-build guard, or a waypoint failure
tagged with the waypoint's name. -/
inductive BuildError where
  | concurrentBuild
  | waypointFailed (name : String) (e : WaypointError)
deriving DecidableEq, Repr

/-- Automator state touched by `build`: the single-flight flag, the build
counter, the source snapshot, the destination, and the waypoint list. -/
structure Automator where
  building : Bool
  buildCount : Nat
  source : BufStore
  destination : Destination
  waypoints : List Waypoint

/-- A build result (the `Result` record): changes, per-waypoint steps,
initial input, final output, and the build id. -/
structure Result where
  changes : List Change
  steps : List Step
  input : BufStore
  output : BufStore
  id : Nat

/-- The private `build(priv, safeDelete)` of `Automator.js`: guarded by the
single-flight flag, it runs the waypoint pipeline (clearing the flag and
rethrowing on failure), syncs the output into the destination, clears the
flag and consumes a build id. -/
def Automator.build (a : Automator) (safeDelete : Bool) (fresh : Nat) :
    Automator × Except BuildError (Result × List DiskOp) :=
  if a.building then (a, .error .concurrentBuild)
  else
    let a1 := { a with building := true }
    match runWaypoints a.waypoints a.source fresh with
    | .error (n, e) => ({ a1 with building := false }, .error (.waypointFailed n e))
    | .ok (finalOutput, steps, _) =>
      let u := a1.destination.update (stripIds finalOutput) safeDelete
      ({ a1 with building := false, destination := u.1, buildCount := a.buildCount + 1 },
       .ok ({ changes := u.2.1, steps := steps, input := a.source, output := finalOutput,
              id := a.buildCount }, u.2.2))

/-- Events emitted around a build. -/
inductive BuildEvent where
  | buildStarting
  | buildComplete
  | buildFailed (e : BuildError)
deriving DecidableEq, Repr

/-- Fulfillment value of `start()`: a build result, or — in watch mode after
a failed first build — the error object itself as a value. -/
inductive StartValue where
  | result (r : Result)
  | errorValue (e : BuildError)

/-- `Automator#start()` around the first build: emit `build-starting`, run
build #0 with `safeDelete = true`; on success emit `build-complete` and
fulfill with the result; on failure emit `build-failed`, then fulfill with
the error object when watching and reject otherwise. -/
def Automator.start (a : Automator) (watch : Bool) (fresh : Nat) :
    Automator × List BuildEvent × Except BuildError StartValue :=
  let b := a.build true fresh
  match b.2 with
  | .ok (res, _) => (b.1, [.buildStarting, .buildComplete], .ok (.result res))
  | .error e =>
    if watch then (b.1, [.buildStarting, .buildFailed e], .ok (.errorValue e))
    else (b.1, [.buildStarting, .buildFailed e], .error e)

/-- Errors of the constructor's path validation. -/
inductive ConfigError where
  | srcOutsideCwd
  | destOutsideCwd
  | destInsideSrc
deriving DecidableEq, Repr

/-- The path checks of the `Automator` constructor, over resolved absolute
paths: source and destination must lie within the working directory, and
the destination must not equal or nest inside the source. -/
def validatePaths (cwd srcDir destDir : FsPath) : Except ConfigError Unit :=
  if subdir cwd srcDir = false then .error .srcOutsideCwd
  else if subdir cwd destDir = false then .error .destOutsideCwd
  else if destDir = srcDir ∨ subdir srcDir destDir = true then .error .destInsideSrc
  else .ok ()

theorem assocGet_eq_none {α : Type} {m : List (String × α)} {f : String} :
    assocGet m f = none ↔ f ∉ m.map Prod.fst := by
  induction m with
  | nil => simp [assocGet]
  | cons e rest ih =>
    obtain ⟨k, v⟩ := e
    by_cases hk : k = f
    · subst hk; simp [assocGet]
    · simp [assocGet, hk, ih, Ne.symm hk]

theorem assocGet_isSome_iff {α : Type} {m : List (String × α)} {f : String} :
    (assocGet m f).isSome = true ↔ f ∈ m.map Prod.fst := by
  constructor
  · intro h
    by_contra hmem
    rw [assocGet_eq_none.mpr hmem] at h
    simp at h
  · intro h
    cases hs : assocGet m f with
    | none => exact absurd (assocGet_eq_none.mp hs) (by simp [h])
    | some v => rfl

theorem assocGet_mem {α : Type} {m : List (String × α)} {f : String} {v : α}
    (h : assocGet m f = some v) : (f, v) ∈ m := by
  induction m with
  | nil => simp [assocGet] at h
  | cons e rest ih =>
    obtain ⟨k, w⟩ := e
    by_cases hk : k = f
    · subst hk
      simp [assocGet] at h
      simp [h]
    · simp [assocGet, hk] at h
      simp [ih h]

theorem mem_assocGet {α : Type} {m : List (String × α)} {f : String} {v : α}
    (hnd : (m.map Prod.fst).Nodup) (h : (f, v) ∈ m) : assocGet m f = some v := by
  induction m with
  | nil => simp at h
  | cons e rest ih =>
    obtain ⟨k, w⟩ := e
    simp only [List.map_cons, List.nodup_cons] at hnd
    rcases List.mem_cons.mp h with h1 | h1
    · have hk : f = k := congrArg Prod.fst h1
      have hv : v = w := congrArg Prod.snd h1
      subst hk; subst hv
      simp [assocGet]
    · have hkf : k ≠ f := by
        intro hkf
        subst hkf
        exact hnd.1 (by simpa using List.mem_map_of_mem Prod.fst h1)
      simp [assocGet, hkf, ih hnd.2 h1]

theorem storeEquals_iff {a b : ContentStore} :
    storeEquals a b = true ↔ ∀ k, storeGet a k = storeGet b k := by
  constructor
  · intro h k
    simp only [storeEquals, Bool.and_eq_true, List.all_eq_true, beq_iff_eq] at h
    obtain ⟨h1, h2⟩ := h
    by_cases hka : k ∈ storeKeys a
    · exact (h1 k hka).symm
    · have hga : storeGet a k = none := assocGet_eq_none.mpr hka
      by_cases hkb : k ∈ storeKeys b
      · exact h2 k hkb
      · exact hga.trans (assocGet_eq_none.mpr hkb).symm
  · intro h
    simp only [storeEquals, Bool.and_eq_true, List.all_eq_true, beq_iff_eq]
    exact ⟨fun k _ => (h k).symm, fun k _ => h k⟩

theorem storeEquals_refl (m : ContentStore) : storeEquals m m = true :=
  storeEquals_iff.mpr (fun _ => rfl)

theorem writeChange_eq_some {oldFiles : ContentStore} {e : String × Bytes} {c : Change} :
    writeChange oldFiles e = some c ↔
      c = ⟨e.1, some e.2, storeGet oldFiles e.1⟩ ∧ storeGet oldFiles e.1 ≠ some e.2 := by
  unfold writeChange
  cases hg : storeGet oldFiles e.1 with
  | none => simp [eq_comm]
  | some oldC =>
    by_cases he : e.2 = oldC
    · subst he; simp
    · simp [he, eq_comm, Ne.symm he]

theorem deleteChange_eq_some {newFiles : ContentStore} {e : String × Bytes} {c : Change} :
    deleteChange newFiles e = some c ↔
      c = ⟨e.1, none, some e.2⟩ ∧ storeGet newFiles e.1 = none := by
  unfold deleteChange
  cases hg : storeGet newFiles e.1 with
  | none => simp [storeHas, hg, eq_comm]
  | some b => simp [storeHas, hg]

theorem mem_writes_iff {old new : ContentStore} {c : Change}
    (hn : (storeKeys new).Nodup) :
    c ∈ new.filterMap (writeChange old) ↔
      ∃ p b, c = (⟨p, some b, storeGet old p⟩ : Change) ∧
        storeGet new p = some b ∧ storeGet old p ≠ some b := by
  rw [List.mem_filterMap]
  constructor
  · rintro ⟨e, he, hwc⟩
    obtain ⟨hc, hnee⟩ := writeChange_eq_some.mp hwc
    exact ⟨e.1, e.2, hc, mem_assocGet hn (Prod.mk.eta.symm ▸ he), hnee⟩
  · rintro ⟨p, b, hc, hget, hne2⟩
    refine ⟨(p, b), assocGet_mem hget, ?_⟩
    rw [writeChange_eq_some]
    exact ⟨hc, hne2⟩

theorem mem_deletions_iff {old new : ContentStore} {c : Change}
    (ho : (storeKeys old).Nodup) :
    c ∈ old.filterMap (deleteChange new) ↔
      ∃ p ob, c = (⟨p, none, some ob⟩ : Change) ∧
        storeGet old p = some ob ∧ storeGet new p = none := by
  rw [List.mem_filterMap]
  constructor
  · rintro ⟨e, he, hdc⟩
    obtain ⟨hc, hnone⟩ := deleteChange_eq_some.mp hdc
    exact ⟨e.1, e.2, hc, mem_assocGet ho (Prod.mk.eta.symm ▸ he), hnone⟩
  · rintro ⟨p, ob, hc, hget, hnone⟩
    refine ⟨(p, ob), assocGet_mem hget, ?_⟩
    rw [deleteChange_eq_some]
    exact ⟨hc, hnone⟩

theorem filterMap_file_sublist {g : String × Bytes → Option Change}
    (hg : ∀ e c, g e = some c → c.file = e.1) (l : ContentStore) :
    ((l.filterMap g).map Change.file).Sublist (l.map Prod.fst) := by
  induction l with
  | nil => simp
  | cons e rest ih =>
    cases hge : g e with
    | none =>
      simpa [List.filterMap_cons, hge] using ih.cons e.1
    | some c =>
      simpa [List.filterMap_cons, hge, hg e c hge] using ih.cons₂ e.1

/-- C1: for a primed destination whose store has unique keys and a new store
(unique keys) not deep-equal to the old one, `update` writes to disk exactly
the paths of the new store whose content differs from or is absent in the
old store, removes from disk exactly the paths present in the old store but
absent from the new (via trash when `safeDelete`, unlink otherwise), each
such path producing exactly one change — add or modify for writes, delete
for removals — and returns the write-changes followed by the
delete-changes. -/
theorem update_diff (d : Destination) (newFiles : ContentStore) (safe : Bool)
    (ho : (storeKeys d.files).Nodup) (hn : (storeKeys newFiles).Nodup)
    (hne : storeEquals d.files newFiles = false) :
    (∀ p b, DiskOp.write p b ∈ (d.update newFiles safe).2.2 ↔
        (storeGet newFiles p = some b ∧ storeGet d.files p ≠ some b)) ∧
    (∀ p, DiskOp.trash p ∈ (d.update newFiles safe).2.2 ↔
        (safe = true ∧ (storeGet d.files p).isSome = true ∧ storeGet newFiles p = none)) ∧
    (∀ p, DiskOp.unlink p ∈ (d.update newFiles safe).2.2 ↔
        (safe = false ∧ (storeGet d.files p).isSome = true ∧ storeGet newFiles p = none)) ∧
    (∀ p b, (⟨p, some b, storeGet d.files p⟩ : Change) ∈ (d.update newFiles safe).2.1 ↔
        (storeGet newFiles p = some b ∧ storeGet d.files p ≠ some b)) ∧
    (∀ p ob, (⟨p, none, some ob⟩ : Change) ∈ (d.update newFiles safe).2.1 ↔
        (storeGet d.files p = some ob ∧ storeGet newFiles p = none)) ∧
    (∃ ws ds, (d.update newFiles safe).2.1 = ws ++ ds ∧
        (∀ c ∈ ws, c.oldContents = storeGet d.files c.file ∧
          storeGet newFiles c.file = c.contents ∧
          Change.type c = if (storeGet d.files c.file).isSome then "modify" else "add") ∧
        (∀ c ∈ ds, c.contents = none ∧ c.oldContents = storeGet d.files c.file ∧
          storeGet newFiles c.file = none ∧ Change.type c = "delete")) ∧
    ((d.update newFiles safe).2.1.map Change.file).Nodup := by
  have hu : d.update newFiles safe =
      (⟨d.dir, newFiles⟩,
       newFiles.filterMap (writeChange d.files) ++ d.files.filterMap (deleteChange newFiles),
       (newFiles.filterMap (writeChange d.files)).map
          (fun c => DiskOp.write c.file (c.contents.getD [])) ++
       (d.files.filterMap (deleteChange newFiles)).map
          (fun c => if safe then DiskOp.trash c.file else DiskOp.unlink c.file)) := by
    rw [Destination.update, hne]
    simp
  rw [hu]
  simp only []
  refine ⟨?_, ?_, ?_, ?_, ?_, ?_, ?_⟩
  · -- write ops
    intro p b
    rw [List.mem_append]
    constructor
    · rintro (hw | hd)
      · obtain ⟨c, hc, heq⟩ := List.mem_map.mp hw
        obtain ⟨q, v, hcq, hgn, hgo⟩ := (mem_writes_iff hn).mp hc
        subst hcq
        obtain ⟨h1, h2⟩ := DiskOp.write.injEq .. ▸ heq
        simp only at h1 h2
        subst h1
        simp only [Option.getD_some] at h2
        subst h2
        exact ⟨hgn, hgo⟩
      · obtain ⟨c, hc, heq⟩ := List.mem_map.mp hd
        cases safe <;> simp at heq
    · rintro ⟨hgn, hgo⟩
      refine Or.inl (List.mem_map.mpr ⟨⟨p, some b, storeGet d.files p⟩, ?_, rfl⟩)
      exact (mem_writes_iff hn).mpr ⟨p, b, rfl, hgn, hgo⟩
  · -- trash ops
    intro p
    rw [List.mem_append]
    constructor
    · rintro (hw | hd)
      · obtain ⟨c, hc, heq⟩ := List.mem_map.mp hw
        simp at heq
      · obtain ⟨c, hc, heq⟩ := List.mem_map.mp hd
        obtain ⟨q, ob, hcq, hgo, hgn⟩ := (mem_deletions_iff ho).mp hc
        subst hcq
        cases safe with
        | false => simp at heq
        | true =>
          simp only [if_true] at heq
          obtain h1 := DiskOp.trash.injEq .. ▸ heq
          simp only at h1
          subst h1
          exact ⟨rfl, by simp [hgo], hgn⟩
    · rintro ⟨hs, hsome, hnone⟩
      subst hs
      obtain ⟨ob, hob⟩ := Option.isSome_iff_exists.mp hsome
      refine Or.inr (List.mem_map.mpr ⟨⟨p, none, some ob⟩, ?_, by simp⟩)
      exact (mem_deletions_iff ho).mpr ⟨p, ob, rfl, hob, hnone⟩
  · -- unlink ops
    intro p
    rw [List.mem_append]
    constructor
    · rintro (hw | hd)
      · obtain ⟨c, hc, heq⟩ := List.mem_map.mp hw
        simp at heq
      · obtain ⟨c, hc, heq⟩ := List.mem_map.mp hd
        obtain ⟨q, ob, hcq, hgo, hgn⟩ := (mem_deletions_iff ho).mp hc
        subst hcq
        cases safe with
        | true => simp at heq
        | false =>
          simp only [if_false] at heq
          obtain h1 := DiskOp.unlink.injEq .. ▸ heq
          simp only at h1
          subst h1
          exact ⟨rfl, by simp [hgo], hgn⟩
    · rintro ⟨hs, hsome, hnone⟩
      subst hs
      obtain ⟨ob, hob⟩ := Option.isSome_iff_exists.mp hsome
      refine Or.inr (List.mem_map.mpr ⟨⟨p, none, some ob⟩, ?_, by simp⟩)
      exact (mem_deletions_iff ho).mpr ⟨p, ob, rfl, hob, hnone⟩
  · -- write changes
    intro p b
    rw [List.mem_append]
    constructor
    · rintro (hw | hd)
      · obtain ⟨q, v, hcq, hgn, hgo⟩ := (mem_writes_iff hn).mp hw
        obtain ⟨h1, h2, h3⟩ := Change.mk.injEq .. ▸ hcq
        subst h1
        rw [Option.some.injEq] at h2
        subst h2
        exact ⟨hgn, hgo⟩
      · obtain ⟨q, ob, hcq, hgo, hgn⟩ := (mem_deletions_iff ho).mp hd
        obtain ⟨h1, h2, h3⟩ := Change.mk.injEq .. ▸ hcq
        simp at h2
    · rintro ⟨hgn, hgo⟩
      exact Or.inl ((mem_writes_iff hn).mpr ⟨p, b, rfl, hgn, hgo⟩)
  · -- delete changes
    intro p ob
    rw [List.mem_append]
    constructor
    · rintro (hw | hd)
      · obtain ⟨q, v, hcq, hgn, hgo⟩ := (mem_writes_iff hn).mp hw
        obtain ⟨h1, h2, h3⟩ := Change.mk.injEq .. ▸ hcq
        simp at h2
      · obtain ⟨q, v, hcq, hgo, hgn⟩ := (mem_deletions_iff ho).mp hd
        obtain ⟨h1, h2, h3⟩ := Change.mk.injEq .. ▸ hcq
        subst h1
        rw [Option.some.injEq] at h3
        subst h3
        exact ⟨hgo, hgn⟩
    · rintro ⟨hgo, hgn⟩
      exact Or.inr ((mem_deletions_iff ho).mpr ⟨p, ob, rfl, hgo, hgn⟩)
  · -- shape and ordering: writes then deletions
    refine ⟨newFiles.filterMap (writeChange d.files),
            d.files.filterMap (deleteChange newFiles), rfl, ?_, ?_⟩
    · intro c hc
      obtain ⟨p, b, hcq, hgn, hgo⟩ := (mem_writes_iff hn).mp hc
      subst hcq
      cases hg : storeGet d.files p with
      | none => simp [Change.type, hg, hgn]
      | some oldC => simp [Change.type, hg, hgn]
    · intro c hc
      obtain ⟨p, b, hcq, hgo, hgn⟩ := (mem_deletions_iff ho).mp hc
      subst hcq
      simp [Change.type, hgo, hgn]
  · -- one change per path
    rw [List.map_append]
    have hws : ((newFiles.filterMap (writeChange d.files)).map Change.file).Nodup := by
      refine List.Nodup.sublist (filterMap_file_sublist ?_ newFiles) hn
      intro e c hec
      exact ((writeChange_eq_some.mp hec).1 ▸ rfl)
    have hds : ((d.files.filterMap (deleteChange newFiles)).map Change.file).Nodup := by
      refine List.Nodup.sublist (filterMap_file_sublist ?_ d.files) ho
      intro e c hec
      exact ((deleteChange_eq_some.mp hec).1 ▸ rfl)
    refine List.Nodup.append hws hds ?_
    intro p hpw hpd
    obtain ⟨c1, hc1, hf1⟩ := List.mem_map.mp hpw
    obtain ⟨c2, hc2, hf2⟩ := List.mem_map.mp hpd
    obtain ⟨q1, b1, hcq1, hgn1, _⟩ := (mem_writes_iff hn).mp hc1
    obtain ⟨q2, b2, hcq2, _, hgn2⟩ := (mem_deletions_iff ho).mp hc2
    subst hcq1; subst hcq2
    simp only at hf1 hf2
    rw [hf1] at hgn1
    rw [hf2] at hgn2
    rw [hgn2] at hgn1
    exact Option.noConfusion hgn1

/-- C1 witness: the diff characterisation applied to a concrete primed
destination and a differing new store. -/
theorem update_diff_witness :
    ((storeKeys ([("a", [1])] : ContentStore)).Nodup ∧
     (storeKeys ([("b", [2])] : ContentStore)).Nodup ∧
     storeEquals [("a", [1])] [("b", [2])] = false) ∧
    (∀ p b, DiskOp.write p b ∈
        ((⟨"out", [("a", [1])]⟩ : Destination).update [("b", [2])] true).2.2 ↔
      (storeGet [("b", [2])] p = some b ∧ storeGet [("a", [1])] p ≠ some b)) :=
  ⟨⟨by decide, by decide, by decide⟩,
   (update_diff ⟨"out", [("a", [1])]⟩ [("b", [2])] true (by decide) (by decide) (by decide)).1⟩

/-- C2 counterexample: two deep-equal stores with different entry order; the
fast path returns before `priv.files = newFiles`, so the stored reference is
the old store, not the one passed in — the claimed reference swap does not
happen. -/
theorem update_fastPath_cex :
    storeEquals [("a", [1]), ("b", [2])] [("b", [2]), ("a", [1])] = true ∧
    ((⟨"out", [("a", [1]), ("b", [2])]⟩ : Destination).update
        [("b", [2]), ("a", [1])] true).1.files ≠ [("b", [2]), ("a", [1])] := by
  decide

/-- C2 (amended): when the new store deep-equals the current store, `update`
returns the empty change list with no disk operations and keeps the old
store reference unchanged; and calling `update` twice in a row with the
same store always yields an empty change list and no disk operations the
second time. -/
theorem update_fastPath_idempotent (d : Destination) (newFiles : ContentStore)
    (safe safe2 : Bool) :
    (storeEquals d.files newFiles = true → d.update newFiles safe = (d, [], [])) ∧
    (d.update newFiles safe).1.update newFiles safe2 = ((d.update newFiles safe).1, [], []) := by
  constructor
  · intro h
    rw [Destination.update, h]
    simp
  · cases hc : storeEquals d.files newFiles with
    | true =>
      have h1 : d.update newFiles safe = (d, [], []) := by
        rw [Destination.update, hc]; simp
      rw [h1]
      rw [Destination.update, hc]
      simp
    | false =>
      have h1 : (d.update newFiles safe).1 = ⟨d.dir, newFiles⟩ := by
        rw [Destination.update, hc]; simp
      rw [h1]
      rw [Destination.update]
      simp [storeEquals_refl]

/-- C2 witness: the fast path and the idempotence property at a concrete
store. -/
theorem update_fastPath_idempotent_witness :
    storeEquals [("a", [1])] [("a", [1])] = true ∧
    ((⟨"out", [("a", [1])]⟩ : Destination).update [("a", [1])] true =
        (⟨"out", [("a", [1])]⟩, [], []) ∧
     ((⟨"out", [("a", [1])]⟩ : Destination).update [("a", [1])] true).1.update
         [("a", [1])] false =
       (((⟨"out", [("a", [1])]⟩ : Destination).update [("a", [1])] true).1, [], [])) :=
  ⟨by decide,
   ⟨(update_fastPath_idempotent ⟨"out", [("a", [1])]⟩ [("a", [1])] true false).1 (by decide),
    (update_fastPath_idempotent ⟨"out", [("a", [1])]⟩ [("a", [1])] true false).2⟩⟩

theorem prefix_dropLast_of_ne {til file : FsPath} (hpre : til <+: file) (hne : til ≠ file) :
    til <+: file.dropLast := by
  have hlt : til.length < file.length := by
    rcases Nat.lt_or_ge til.length file.length with h | h
    · exact h
    · exact absurd (hpre.eq_of_length (le_antisymm hpre.length_le h)) hne
  rw [List.prefix_iff_eq_take] at hpre ⊢
  rw [List.dropLast_eq_take, List.take_take, inf_eq_left.mpr (by omega)]
  exact hpre

theorem rmdir_ok {fs : FileSystem} {d : FsPath} {fs2 : FileSystem}
    (h : fs.rmdir d = .ok fs2) :
    d ∈ fs.dirs ∧ fs.nonempty d = false ∧
      fs2 = ⟨fs.dirs.filter (fun x => x ≠ d), fs.files⟩ := by
  unfold FileSystem.rmdir at h
  by_cases hd : d ∈ fs.dirs
  · by_cases hne : fs.nonempty d = true
    · rw [if_pos hd, if_pos hne] at h
      exact absurd h (by simp)
    · rw [if_pos hd, if_neg hne] at h
      injection h with h2
      exact ⟨hd, by simpa using hne, h2.symm⟩
  · rw [if_neg hd] at h
    exact absurd h (by simp)

theorem guard_neg_unpack {til file : FsPath}
    (hguard : ¬(til = file ∨ subdir til file = false)) :
    til ≠ file ∧ til <+: file := by
  refine ⟨fun hh => hguard (Or.inl hh), ?_⟩
  cases hs : subdir til file
  · exact absurd (Or.inr hs) hguard
  · exact List.isPrefixOf_iff_prefix.mp hs

theorem deleteEmptyParents_ok_sub :
    ∀ (fs : FileSystem) (file til : FsPath) (fs2 : FileSystem),
      deleteEmptyParents fs file til = .ok fs2 →
      fs2.files = fs.files ∧ (∀ d, d ∈ fs2.dirs → d ∈ fs.dirs) ∧
      (∀ d, d ∈ fs.dirs → d ∉ fs2.dirs →
        til.isPrefixOf d = true ∧ d.isPrefixOf file.dropLast = true) := by
  intro fs file til
  induction fs, file, til using deleteEmptyParents.induct with
  | case1 fs file til hguard =>
    intro fs2 h
    rw [deleteEmptyParents, if_pos hguard] at h
    injection h with h
    subst h
    exact ⟨rfl, fun d hd => hd, fun d hd hnd => absurd hd hnd⟩
  | case2 fs file til hguard fsA hrm hrec ih =>
    intro fs2 h
    obtain ⟨hne, hpre⟩ := guard_neg_unpack hguard
    obtain ⟨hdmem, hnonempty, hfsA⟩ := rmdir_ok hrm
    have heq : deleteEmptyParents fs file til = .ok fsA := by
      rw [deleteEmptyParents, if_neg hguard]
      simp only [hrm, hrec]
    rw [heq] at h
    injection h with h
    subst h
    subst hfsA
    refine ⟨rfl, fun d hd => (List.mem_filter.mp hd).1, ?_⟩
    intro d hd hnd
    have hdp : d = file.dropLast := by
      by_contra hdne
      exact hnd (List.mem_filter.mpr ⟨hd, by simpa using hdne⟩)
    subst hdp
    exact ⟨List.isPrefixOf_iff_prefix.mpr (prefix_dropLast_of_ne hpre hne),
           List.isPrefixOf_iff_prefix.mpr (List.prefix_refl _)⟩
  | case3 fs file til hguard fsA hrm hrecne ih =>
    intro fs2 h
    obtain ⟨hne, hpre⟩ := guard_neg_unpack hguard
    obtain ⟨hdmem, hnonempty, hfsA⟩ := rmdir_ok hrm
    cases hrec : deleteEmptyParents fsA file.dropLast til with
    | ok fsB =>
      have heq : deleteEmptyParents fs file til = .ok fsB := by
        rw [deleteEmptyParents, if_neg hguard]
        simp only [hrm, hrec]
      rw [heq] at h
      injection h with h
      subst h
      obtain ⟨hfB, hdB, hremB⟩ := ih fsB hrec
      subst hfsA
      refine ⟨hfB, fun d hd => (List.mem_filter.mp (hdB d hd)).1, ?_⟩
      intro d hd hnd
      by_cases hdA : d ∈ (FileSystem.mk
          (fs.dirs.filter (fun x => x ≠ file.dropLast)) fs.files).dirs
      · obtain ⟨h1, h2⟩ := hremB d hdA hnd
        refine ⟨h1, ?_⟩
        have hch : d <+: (file.dropLast).dropLast := List.isPrefixOf_iff_prefix.mp h2
        exact List.isPrefixOf_iff_prefix.mpr (hch.trans (List.dropLast_prefix _))
      · have hdp : d = file.dropLast := by
          by_contra hdne
          exact hdA (List.mem_filter.mpr ⟨hd, by simpa using hdne⟩)
        subst hdp
        exact ⟨List.isPrefixOf_iff_prefix.mpr (prefix_dropLast_of_ne hpre hne),
               List.isPrefixOf_iff_prefix.mpr (List.prefix_refl _)⟩
    | error e =>
      cases e with
      | enotempty => exact absurd hrec (fun hh => hrecne hh)
      | enoent =>
        have heq : deleteEmptyParents fs file til = .error .enoent := by
          rw [deleteEmptyParents, if_neg hguard]
          simp only [hrm, hrec]
        rw [heq] at h
        exact absurd h (by simp)
  | case4 fs file til hguard hrm =>
    intro fs2 h
    have heq : deleteEmptyParents fs file til = .ok fs := by
      rw [deleteEmptyParents, if_neg hguard]
      simp only [hrm]
    rw [heq] at h
    injection h with h
    subst h
    exact ⟨rfl, fun d hd => hd, fun d hd hnd => absurd hd hnd⟩
  | case5 fs file til hguard e hene hrm =>
    intro fs2 h
    cases e with
    | enotempty => exact absurd rfl hene
    | enoent =>
      have heq : deleteEmptyParents fs file til = .error .enoent := by
        rw [deleteEmptyParents, if_neg hguard]
        simp only [hrm]
      rw [heq] at h
      exact absurd h (by simp)

theorem deleteEmptyParents_error_enoent :
    ∀ (fs : FileSystem) (file til : FsPath) (e : FsError),
      deleteEmptyParents fs file til = .error e → e = .enoent := by
  intro fs file til
  induction fs, file, til using deleteEmptyParents.induct with
  | case1 fs file til hguard =>
    intro e h
    rw [deleteEmptyParents, if_pos hguard] at h
    exact absurd h (by simp)
  | case2 fs file til hguard fsA hrm hrec ih =>
    intro e h
    have heq : deleteEmptyParents fs file til = .ok fsA := by
      rw [deleteEmptyParents, if_neg hguard]
      simp only [hrm, hrec]
    rw [heq] at h
    exact absurd h (by simp)
  | case3 fs file til hguard fsA hrm hrecne ih =>
    intro e h
    cases hrec : deleteEmptyParents fsA file.dropLast til with
    | ok fsB =>
      have heq : deleteEmptyParents fs file til = .ok fsB := by
        rw [deleteEmptyParents, if_neg hguard]
        simp only [hrm, hrec]
      rw [heq] at h
      exact absurd h (by simp)
    | error e2 =>
      cases e2 with
      | enotempty => exact absurd hrec (fun hh => hrecne hh)
      | enoent =>
        have heq : deleteEmptyParents fs file til = .error .enoent := by
          rw [deleteEmptyParents, if_neg hguard]
          simp only [hrm, hrec]
        rw [heq] at h
        injection h with h
        subst h
        rfl
  | case4 fs file til hguard hrm =>
    intro e h
    have heq : deleteEmptyParents fs file til = .ok fs := by
      rw [deleteEmptyParents, if_neg hguard]
      simp only [hrm]
    rw [heq] at h
    exact absurd h (by simp)
  | case5 fs file til hguard e2 hene hrm =>
    intro e h
    cases e2 with
    | enotempty => exact absurd rfl hene
    | enoent =>
      have heq : deleteEmptyParents fs file til = .error .enoent := by
        rw [deleteEmptyParents, if_neg hguard]
        simp only [hrm]
      rw [heq] at h
      injection h with h
      subst h
      rfl

/-- C3 counterexample: when deletions empty the destination root itself, the
walk removes the root directory too — the claimed "never removes the
destination root" does not hold. Here the root `d` holds only the deleted
file's (already removed) entry, and cleaning up after `d/b` removes `d`. -/
theorem deleteEmptyParents_removes_root_cex :
    (["d"] : FsPath) ∈ (⟨[["d"]], []⟩ : FileSystem).dirs ∧
    deleteEmptyParents ⟨[["d"]], []⟩ ["d", "b"] ["d"] = .ok ⟨[], []⟩ := by
  refine ⟨by decide, ?_⟩
  simp +decide [deleteEmptyParents, FileSystem.rmdir, FileSystem.nonempty,
    FileSystem.entries, subdir]

/-- C3 (amended): after deletions, the walk from a deleted file's containing
directory removes only directories that are ancestors of that directory
lying at or below the destination root (so it never touches anything outside
the root, though it may remove the root itself when empty), leaves the file
set untouched, stops — leaving the tree unchanged — when the containing
directory is non-empty, propagates an error other than "directory not empty"
(failing the update), and never itself fails with "directory not empty". -/
theorem deleteEmptyParents_spec (fs : FileSystem) (file til : FsPath) :
    (∀ fs2, deleteEmptyParents fs file til = .ok fs2 →
        fs2.files = fs.files ∧ (∀ d, d ∈ fs2.dirs → d ∈ fs.dirs) ∧
        (∀ d, d ∈ fs.dirs → d ∉ fs2.dirs →
          til.isPrefixOf d = true ∧ d.isPrefixOf file.dropLast = true)) ∧
    (∀ e, deleteEmptyParents fs file til = .error e → e = .enoent) ∧
    (til ≠ file → subdir til file = true → file.dropLast ∈ fs.dirs →
      fs.nonempty file.dropLast = true → deleteEmptyParents fs file til = .ok fs) ∧
    (til ≠ file → subdir til file = true → file.dropLast ∉ fs.dirs →
      deleteEmptyParents fs file til = .error .enoent) := by
  have hguard : ∀ (hne : til ≠ file) (hsub : subdir til file = true),
      ¬(til = file ∨ subdir til file = false) := by
    rintro hne hsub (hh | hh)
    · exact hne hh
    · rw [hsub] at hh
      exact Bool.noConfusion hh
  refine ⟨fun fs2 h => deleteEmptyParents_ok_sub fs file til fs2 h,
          fun e h => deleteEmptyParents_error_enoent fs file til e h, ?_, ?_⟩
  · intro hne hsub hmem hnone
    rw [deleteEmptyParents, if_neg (hguard hne hsub)]
    have hrm : fs.rmdir file.dropLast = .error .enotempty := by
      rw [FileSystem.rmdir, if_pos hmem, if_pos hnone]
    simp only [hrm]
  · intro hne hsub hmem
    rw [deleteEmptyParents, if_neg (hguard hne hsub)]
    have hrm : fs.rmdir file.dropLast = .error .enoent := by
      rw [FileSystem.rmdir, if_neg hmem]
    simp only [hrm]

/-- C3 witness: the walk stops, leaving the tree unchanged, at a concrete
non-empty containing directory. -/
theorem deleteEmptyParents_spec_witness :
    ((["d"] : FsPath) ≠ ["d", "a", "f"] ∧
     subdir ["d"] ["d", "a", "f"] = true ∧
     (["d", "a", "f"] : FsPath).dropLast ∈
       (⟨[["d"], ["d", "a"]], [["d", "a", "g"]]⟩ : FileSystem).dirs ∧
     (⟨[["d"], ["d", "a"]], [["d", "a", "g"]]⟩ : FileSystem).nonempty
       (["d", "a", "f"] : FsPath).dropLast = true) ∧
    deleteEmptyParents ⟨[["d"], ["d", "a"]], [["d", "a", "g"]]⟩ ["d", "a", "f"] ["d"] =
      .ok ⟨[["d"], ["d", "a"]], [["d", "a", "g"]]⟩ :=
  ⟨⟨by decide, by decide, by decide, by decide⟩,
   (deleteEmptyParents_spec ⟨[["d"], ["d", "a"]], [["d", "a", "g"]]⟩
      ["d", "a", "f"] ["d"]).2.2.1 (by decide) (by decide) (by decide) (by decide)⟩

/-- C4 counterexample: a waypoint returns a fresh buffer whose bytes equal
the pre-waypoint content, normalisation duly keeps the old buffer object,
yet the subsequent update still writes that path and produces a modify
change, because the destination's current store holds different bytes
there. -/
theorem normalize_identical_write_cex :
    runWaypoints [⟨"w", fun _ => .fresh [("a", RawVal.buf ⟨5, [1]⟩)]⟩]
        [("a", ⟨0, [1]⟩)] 10 =
      .ok ([("a", (⟨0, [1]⟩ : Buf))],
           [⟨[("a", ⟨0, [1]⟩)], [("a", ⟨0, [1]⟩)]⟩], 10) ∧
    ((⟨"out", [("a", [2])]⟩ : Destination).update
        (stripIds [("a", (⟨0, [1]⟩ : Buf))]) false).2.1 =
      [⟨"a", some [1], some [2]⟩] := by
  constructor
  · rfl
  · rfl

/-- C4 (amended): when a waypoint entry's normalised bytes are byte-identical
to the pre-waypoint content at that path, normalisation returns the old
(pre-waypoint) buffer object itself; and for any path where the
destination's current store already holds the same bytes as the new store,
`update` performs no write, trash or unlink and produces no Change for that
path. -/
theorem normalize_keepOld_noChange
    (input : BufStore) (file : String) (v : RawVal) (fresh : Nat) (oldC : Buf)
    (d : Destination) (newFiles : ContentStore) (safe : Bool) (p : String)
    (h1 : assocGet input file = some oldC)
    (h2 : rawBytes v = some oldC.bytes)
    (h3 : (storeKeys newFiles).Nodup)
    (h4 : storeGet d.files p = storeGet newFiles p) :
    (∃ f2, normalizeValue input file v fresh = .ok (oldC, f2)) ∧
    (∀ c ∈ (d.update newFiles safe).2.1, c.file ≠ p) ∧
    (∀ op ∈ (d.update newFiles safe).2.2, DiskOp.file op ≠ p) := by
  have hkeep : ∃ f2, normalizeValue input file v fresh = .ok (oldC, f2) := by
    cases v with
    | other => exact absurd h2 (by simp [rawBytes])
    | buf b =>
      have hb : b.bytes = oldC.bytes := by simpa [rawBytes] using h2
      refine ⟨fresh, ?_⟩
      rw [normalizeValue]
      simp only [h1]
      rw [if_pos hb.symm]
    | str s =>
      have hb : utf8 s = oldC.bytes := by simpa [rawBytes] using h2
      refine ⟨fresh + 1, ?_⟩
      rw [normalizeValue]
      simp only [h1]
      rw [if_pos hb.symm]
  have hW : ∀ c ∈ newFiles.filterMap (writeChange d.files), c.file ≠ p := by
    intro c hc
    obtain ⟨e, he, hwc⟩ := List.mem_filterMap.mp hc
    obtain ⟨hceq, hne2⟩ := writeChange_eq_some.mp hwc
    subst hceq
    intro hfp
    simp only at hfp
    subst hfp
    exact hne2 (h4.trans (mem_assocGet h3 (Prod.mk.eta.symm ▸ he)))
  have hD : ∀ c ∈ d.files.filterMap (deleteChange newFiles), c.file ≠ p := by
    intro c hc
    obtain ⟨e, he, hdc⟩ := List.mem_filterMap.mp hc
    obtain ⟨hceq, hnone⟩ := deleteChange_eq_some.mp hdc
    subst hceq
    intro hfp
    simp only at hfp
    subst hfp
    have hold : storeGet d.files e.1 = none := h4.trans hnone
    exact absurd (List.mem_map_of_mem Prod.fst he) (assocGet_eq_none.mp hold)
  refine ⟨hkeep, ?_⟩
  cases hc : storeEquals d.files newFiles with
  | true =>
    have hu : d.update newFiles safe = (d, [], []) := by
      rw [Destination.update, hc]; simp
    rw [hu]
    exact ⟨by simp, by simp⟩
  | false =>
    have hu : d.update newFiles safe =
        (⟨d.dir, newFiles⟩,
         newFiles.filterMap (writeChange d.files) ++
           d.files.filterMap (deleteChange newFiles),
         (newFiles.filterMap (writeChange d.files)).map
            (fun c => DiskOp.write c.file (c.contents.getD [])) ++
         (d.files.filterMap (deleteChange newFiles)).map
            (fun c => if safe then DiskOp.trash c.file else DiskOp.unlink c.file)) := by
      rw [Destination.update, hc]
      simp
    rw [hu]
    constructor
    · intro c hcm
      rcases List.mem_append.mp hcm with hm | hm
      · exact hW c hm
      · exact hD c hm
    · intro op hopm
      rcases List.mem_append.mp hopm with hm | hm
      · obtain ⟨c, hcm, hop⟩ := List.mem_map.mp hm
        have : DiskOp.file op = c.file := by rw [← hop]; rfl
        rw [this]
        exact hW c hcm
      · obtain ⟨c, hcm, hop⟩ := List.mem_map.mp hm
        have : DiskOp.file op = c.file := by
          rw [← hop]
          cases safe <;> rfl
        rw [this]
        exact hD c hcm

/-- C4 witness: the keep-old-buffer rule and the no-change guarantee applied
at concrete stores. -/
theorem normalize_keepOld_noChange_witness :
    (assocGet [("a", (⟨0, [1]⟩ : Buf))] "a" = some ⟨0, [1]⟩ ∧
     rawBytes (RawVal.buf ⟨5, [1]⟩) = some (Buf.mk 0 [1]).bytes ∧
     (storeKeys ([("a", [1])] : ContentStore)).Nodup ∧
     storeGet ([("a", [1]), ("x", [3])] : ContentStore) "a" =
       storeGet ([("a", [1])] : ContentStore) "a") ∧
    ((∃ f2, normalizeValue [("a", ⟨0, [1]⟩)] "a" (RawVal.buf ⟨5, [1]⟩) 7 =
        .ok (⟨0, [1]⟩, f2)) ∧
     (∀ c ∈ ((⟨"out", [("a", [1]), ("x", [3])]⟩ : Destination).update
        [("a", [1])] true).2.1, c.file ≠ "a") ∧
     (∀ op ∈ ((⟨"out", [("a", [1]), ("x", [3])]⟩ : Destination).update
        [("a", [1])] true).2.2, DiskOp.file op ≠ "a")) :=
  ⟨⟨by decide, by decide, by decide, by decide⟩,
   normalize_keepOld_noChange [("a", ⟨0, [1]⟩)] "a" (RawVal.buf ⟨5, [1]⟩) 7 ⟨0, [1]⟩
     ⟨"out", [("a", [1]), ("x", [3])]⟩ [("a", [1])] true "a"
     (by decide) (by decide) (by decide) (by decide)⟩

theorem normalizeValue_ok_shape (input : BufStore) (f0 : String) (v : RawVal) (fresh : Nat)
    (h : rawBytes v ≠ none) : ∃ b f2, normalizeValue input f0 v fresh = .ok (b, f2) := by
  cases v with
  | other => simp [rawBytes] at h
  | buf b =>
    cases hg : assocGet input f0 with
    | none => exact ⟨b, fresh, by simp [normalizeValue, hg]⟩
    | some oldC =>
      by_cases hb : oldC.bytes = b.bytes
      · exact ⟨oldC, fresh, by simp [normalizeValue, hg, hb]⟩
      · exact ⟨b, fresh, by simp [normalizeValue, hg, hb]⟩
  | str s =>
    cases hg : assocGet input f0 with
    | none => exact ⟨⟨fresh, utf8 s⟩, fresh + 1, by simp [normalizeValue, hg]⟩
    | some oldC =>
      by_cases hb : oldC.bytes = utf8 s
      · exact ⟨oldC, fresh + 1, by simp [normalizeValue, hg, hb]⟩
      · exact ⟨⟨fresh, utf8 s⟩, fresh + 1, by simp [normalizeValue, hg, hb]⟩

theorem normalizeEntries_error_of_other (input : BufStore) :
    ∀ (entries : List (String × RawVal)) (fresh : Nat),
      (∃ q, (q, RawVal.other) ∈ entries) →
      normalizeEntries input entries fresh = .error .invalidContentType := by
  intro entries
  induction entries with
  | nil =>
    rintro fresh ⟨q, hq⟩
    simp at hq
  | cons e rest ih =>
    rintro fresh ⟨q, hq⟩
    obtain ⟨f0, v0⟩ := e
    cases hv : v0 with
    | other => simp [normalizeEntries, normalizeValue]
    | buf b =>
      subst hv
      have hmem : ∃ q, (q, RawVal.other) ∈ rest := by
        rcases List.mem_cons.mp hq with h1 | h1
        · exact absurd (congrArg Prod.snd h1) (by simp)
        · exact ⟨q, h1⟩
      obtain ⟨bb, f2, hnv⟩ := normalizeValue_ok_shape input f0 (RawVal.buf b) fresh (by simp [rawBytes])
      rw [normalizeEntries]
      simp only [hnv, ih f2 hmem]
    | str s =>
      subst hv
      have hmem : ∃ q, (q, RawVal.other) ∈ rest := by
        rcases List.mem_cons.mp hq with h1 | h1
        · exact absurd (congrArg Prod.snd h1) (by simp)
        · exact ⟨q, h1⟩
      obtain ⟨bb, f2, hnv⟩ := normalizeValue_ok_shape input f0 (RawVal.str s) fresh (by simp [rawBytes])
      rw [normalizeEntries]
      simp only [hnv, ih f2 hmem]

/-- C5: a waypoint returning a non-map fails the build with the
invalid-output error, a returned entry that is neither buffer nor string
fails it with the invalid-content-type error, a throwing waypoint fails it
with its raised error — in each case the failure carries the offending
waypoint's name — and once a waypoint fails, the remaining waypoints are
never consulted: the pipeline result is that same tagged error regardless
of what follows. -/
theorem runWaypoint_errors (w : Waypoint) (input : BufStore) (fresh : Nat)
    (rest : List Waypoint) :
    (w.fn input = .nonMap → runWaypoint w input fresh = .error (w.name, .invalidOutput)) ∧
    (w.fn input = .raise → runWaypoint w input fresh = .error (w.name, .raised)) ∧
    (∀ entries, w.fn input = .fresh entries → (∃ q, (q, RawVal.other) ∈ entries) →
      runWaypoint w input fresh = .error (w.name, .invalidContentType)) ∧
    (∀ err, runWaypoint w input fresh = .error err →
      runWaypoints (w :: rest) input fresh = .error err) := by
  refine ⟨?_, ?_, ?_, ?_⟩
  · intro h
    rw [runWaypoint]
    simp only [h]
  · intro h
    rw [runWaypoint]
    simp only [h]
  · intro entries h hex
    have hn := normalizeEntries_error_of_other input entries fresh hex
    rw [runWaypoint]
    simp only [h, hn]
  · intro err h
    rw [runWaypoints]
    simp only [h]

/-- C5 witness: the three failure modes and the abort behaviour at concrete
waypoints. -/
theorem runWaypoint_errors_witness :
    ((Waypoint.mk "w1" (fun _ => .nonMap)).fn [] = .nonMap ∧
     (Waypoint.mk "w2" (fun _ => .raise)).fn [] = .raise ∧
     (Waypoint.mk "w3" (fun _ => .fresh [("a", RawVal.other)])).fn [] =
       .fresh [("a", RawVal.other)]) ∧
    (runWaypoint ⟨"w1", fun _ => .nonMap⟩ [] 0 = .error ("w1", .invalidOutput) ∧
     runWaypoint ⟨"w2", fun _ => .raise⟩ [] 0 = .error ("w2", .raised) ∧
     runWaypoint ⟨"w3", fun _ => .fresh [("a", RawVal.other)]⟩ [] 0 =
       .error ("w3", .invalidContentType) ∧
     runWaypoints [⟨"w1", fun _ => .nonMap⟩, ⟨"w2", fun _ => .raise⟩] [] 0 =
       .error ("w1", .invalidOutput)) :=
  ⟨⟨rfl, rfl, rfl⟩,
   ⟨(runWaypoint_errors ⟨"w1", fun _ => .nonMap⟩ [] 0 []).1 rfl,
    (runWaypoint_errors ⟨"w2", fun _ => .raise⟩ [] 0 []).2.1 rfl,
    (runWaypoint_errors ⟨"w3", fun _ => .fresh [("a", RawVal.other)]⟩ [] 0 []).2.2.1
      [("a", RawVal.other)] rfl ⟨"a", List.mem_singleton.mpr rfl⟩,
    (runWaypoint_errors ⟨"w1", fun _ => .nonMap⟩ [] 0
      [⟨"w2", fun _ => .raise⟩]).2.2.2 ("w1", .invalidOutput) rfl⟩⟩

theorem assocGet_append {α : Type} {m l2 : List (String × α)} {f : String}
    (h : assocGet m f = none) : assocGet (m ++ l2) f = assocGet l2 f := by
  induction m with
  | nil => rfl
  | cons e rest ih =>
    obtain ⟨k, w⟩ := e
    by_cases hk : k = f
    · subst hk
      simp [assocGet] at h
    · simp only [assocGet, hk, if_false, List.cons_append] at h ⊢
      exact ih h

theorem assocGet_map_set {α : Type} (m : List (String × α)) (f : String) (v : α)
    (h : (assocGet m f).isSome = true) :
    assocGet (m.map (fun e => if e.1 = f then (f, v) else e)) f = some v := by
  induction m with
  | nil => simp [assocGet] at h
  | cons e rest ih =>
    obtain ⟨k, w⟩ := e
    by_cases hk : k = f
    · subst hk
      simp only [List.map_cons]
      simp [assocGet]
    · simp only [List.map_cons]
      rw [show (if (k, w).1 = f then (f, v) else (k, w)) = (k, w) from if_neg hk]
      simp only [assocGet, hk, if_false]
      exact ih (by simpa [assocGet, hk] using h)

theorem assocGet_assocSet {α : Type} (m : List (String × α)) (f : String) (v : α) :
    assocGet (assocSet m f v) f = some v := by
  unfold assocSet
  by_cases hs : (assocGet m f).isSome = true
  · rw [if_pos hs]
    exact assocGet_map_set m f v hs
  · rw [if_neg hs]
    have hnone : assocGet m f = none := by
      cases hg : assocGet m f with
      | none => rfl
      | some w => rw [hg] at hs; simp at hs
    rw [assocGet_append hnone]
    simp [assocGet]

theorem handleWrite_identical (st : SourceState) (f : String) (c : Bytes) (now : Nat)
    (h : storeGet st.files f = some c) :
    handleWrite st f c now =
      ({ st with lastTouched := assocSet st.lastTouched f now },
       .ok (decide (timeSinceTouch st f now > 250))) := by
  rw [handleWrite]
  dsimp only
  rw [h]
  rw [if_neg (by simp)]

theorem handleWrite_changed_some (st : SourceState) (f : String) (b0 b1 : Bytes) (now : Nat)
    (h0 : storeGet st.files f = some b0) (hne : b1 ≠ b0)
    (hlim : st.size - (b0.length : Int) + b1.length ≤ st.limit) :
    handleWrite st f b1 now =
      (⟨assocSet st.files f b1, st.size - (b0.length : Int) + b1.length, st.limit,
        assocSet st.lastTouched f now⟩, .ok true) := by
  rw [handleWrite]
  dsimp only
  rw [h0]
  rw [if_pos (by simp only [ne_eq, Option.some.injEq]; exact fun hh => hne hh.symm)]
  dsimp only
  rw [if_neg (not_lt.mpr hlim)]

theorem handleWrite_changed_none (st : SourceState) (f : String) (b1 : Bytes) (now : Nat)
    (h0 : storeGet st.files f = none)
    (hlim : st.size - (0 : Int) + b1.length ≤ st.limit) :
    handleWrite st f b1 now =
      (⟨assocSet st.files f b1, st.size - (0 : Int) + b1.length, st.limit,
        assocSet st.lastTouched f now⟩, .ok true) := by
  rw [handleWrite]
  dsimp only
  rw [h0]
  rw [if_pos (by simp)]
  dsimp only
  rw [if_neg (not_lt.mpr hlim)]

theorem handleWrite_abort_some (st : SourceState) (f : String) (b0 b1 : Bytes) (now : Nat)
    (h0 : storeGet st.files f = some b0) (hne : b1 ≠ b0)
    (hgt : st.size - (b0.length : Int) + b1.length > st.limit) :
    handleWrite st f b1 now =
      (⟨st.files, st.size - (b0.length : Int) + b1.length, st.limit,
        assocSet st.lastTouched f now⟩, .error .sizeLimitExceeded) := by
  rw [handleWrite]
  dsimp only
  rw [h0]
  rw [if_pos (by simp only [ne_eq, Option.some.injEq]; exact fun hh => hne hh.symm)]
  dsimp only
  rw [if_pos hgt]

/-- C6: an add/modify event delivering bytes identical to the stored content
suppresses the `updated` emission unless the gap since the path was last
touched exceeds 250ms; consequently, for a watched file re-saved twice with
the same new content, the two writes produce exactly one emission when the
second comes within 250ms of the first, and two emissions when it comes
later than 250ms. -/
theorem watch_debounce (st : SourceState) (f : String) (b0 b1 : Bytes) (t1 t2 : Nat)
    (h0 : storeGet st.files f = some b0)
    (hne : b1 ≠ b0)
    (hlim : st.size - (b0.length : Int) + b1.length ≤ st.limit) :
    (∀ (st2 : SourceState) (g : String) (c : Bytes) (now : Nat),
        storeGet st2.files g = some c →
        (handleWrite st2 g c now).2 = .ok (decide (timeSinceTouch st2 g now > 250))) ∧
    (handleWrite st f b1 t1).2 = .ok true ∧
    (t2 - t1 ≤ 250 → (handleWrite (handleWrite st f b1 t1).1 f b1 t2).2 = .ok false) ∧
    (t2 - t1 > 250 → (handleWrite (handleWrite st f b1 t1).1 f b1 t2).2 = .ok true) := by
  have hch := handleWrite_changed_some st f b0 b1 t1 h0 hne hlim
  have hget1 : storeGet (handleWrite st f b1 t1).1.files f = some b1 := by
    rw [hch]
    exact assocGet_assocSet st.files f b1
  have htime : timeSinceTouch (handleWrite st f b1 t1).1 f t2 = t2 - t1 := by
    rw [hch, timeSinceTouch]
    simp only [assocGet_assocSet]
  have hsecond := handleWrite_identical (handleWrite st f b1 t1).1 f b1 t2 hget1
  refine ⟨?_, ?_, ?_, ?_⟩
  · intro st2 g c now h
    rw [handleWrite_identical st2 g c now h]
  · rw [hch]
  · intro hle
    rw [hsecond]
    have hnot : ¬ (timeSinceTouch (handleWrite st f b1 t1).1 f t2 > 250) := by
      rw [htime]
      exact not_lt.mpr hle
    simp [hnot]
  · intro hgt
    rw [hsecond]
    have hyes : timeSinceTouch (handleWrite st f b1 t1).1 f t2 > 250 := by
      rw [htime]
      exact hgt
    simp [hyes]

/-- C6 witness: one modified save followed by an identical re-save, checked
inside and outside the 250ms window at concrete times. -/
theorem watch_debounce_witness :
    (storeGet ([("a", [7])] : ContentStore) "a" = some [7] ∧
     ([9] : Bytes) ≠ [7] ∧
     (⟨[("a", [7])], 1, 100, []⟩ : SourceState).size - ((7 : Nat) :: []).length +
       ([9] : Bytes).length ≤ (⟨[("a", [7])], 1, 100, []⟩ : SourceState).limit) ∧
    ((handleWrite ⟨[("a", [7])], 1, 100, []⟩ "a" [9] 1000).2 = .ok true ∧
     ((1100 : Nat) - 1000 ≤ 250 →
      (handleWrite (handleWrite ⟨[("a", [7])], 1, 100, []⟩ "a" [9] 1000).1
        "a" [9] 1100).2 = .ok false) ∧
     ((1300 : Nat) - 1000 > 250 →
      (handleWrite (handleWrite ⟨[("a", [7])], 1, 100, []⟩ "a" [9] 1000).1
        "a" [9] 1300).2 = .ok true)) :=
  ⟨⟨by decide, by decide, by decide⟩,
   (watch_debounce ⟨[("a", [7])], 1, 100, []⟩ "a" [7] [9] 1000 1100
      (by decide) (by decide) (by decide)).2.1,
   (watch_debounce ⟨[("a", [7])], 1, 100, []⟩ "a" [7] [9] 1000 1100
      (by decide) (by decide) (by decide)).2.2.1,
   (watch_debounce ⟨[("a", [7])], 1, 100, []⟩ "a" [7] [9] 1000 1300
      (by decide) (by decide) (by decide)).2.2.2⟩

/-- C7: starting a build while the single-flight flag is set fails with the
concurrent-build error and returns the automator state exactly as it was —
building flag, build counter, source and destination stores all
unchanged. -/
theorem build_concurrent_guard (a : Automator) (safe : Bool) (fresh : Nat)
    (h : a.building = true) :
    Automator.build a safe fresh = (a, .error .concurrentBuild) := by
  rw [Automator.build, if_pos h]

/-- C7 witness: the guard applied to a concrete in-flight automator. -/
theorem build_concurrent_guard_witness :
    (Automator.mk true 3 [] ⟨"out", []⟩ []).building = true ∧
    Automator.build ⟨true, 3, [], ⟨"out", []⟩, []⟩ false 0 =
      (⟨true, 3, [], ⟨"out", []⟩, []⟩, .error .concurrentBuild) :=
  ⟨rfl, build_concurrent_guard ⟨true, 3, [], ⟨"out", []⟩, []⟩ false 0 rfl⟩

/-- C8: when the first build fails, `start` in watch mode fulfills with the
error object as its value (it does not reject) after emitting
`build-starting` then `build-failed`; with watch mode off, `start` rejects
with that error after the same emissions. -/
theorem start_failure_policy (a : Automator) (fresh : Nat) (e : BuildError)
    (h : (a.build true fresh).2 = .error e) :
    Automator.start a true fresh =
      ((a.build true fresh).1, [.buildStarting, .buildFailed e], .ok (.errorValue e)) ∧
    Automator.start a false fresh =
      ((a.build true fresh).1, [.buildStarting, .buildFailed e], .error e) := by
  constructor
  · rw [Automator.start]
    simp only [h]
    rw [if_pos trivial]
  · rw [Automator.start]
    simp only [h]
    rfl

/-- C8 witness: a concrete automator whose single waypoint rejects. -/
theorem start_failure_policy_witness :
    ((Automator.mk false 0 [] ⟨"out", []⟩ [⟨"w", fun _ => .raise⟩]).build true 0).2 =
      .error (.waypointFailed "w" .raised) ∧
    Automator.start ⟨false, 0, [], ⟨"out", []⟩, [⟨"w", fun _ => .raise⟩]⟩ true 0 =
      (((Automator.mk false 0 [] ⟨"out", []⟩ [⟨"w", fun _ => .raise⟩]).build true 0).1,
       [.buildStarting, .buildFailed (.waypointFailed "w" .raised)],
       .ok (.errorValue (.waypointFailed "w" .raised))) ∧
    Automator.start ⟨false, 0, [], ⟨"out", []⟩, [⟨"w", fun _ => .raise⟩]⟩ false 0 =
      (((Automator.mk false 0 [] ⟨"out", []⟩ [⟨"w", fun _ => .raise⟩]).build true 0).1,
       [.buildStarting, .buildFailed (.waypointFailed "w" .raised)],
       .error (.waypointFailed "w" .raised)) :=
  ⟨rfl,
   (start_failure_policy ⟨false, 0, [], ⟨"out", []⟩, [⟨"w", fun _ => .raise⟩]⟩ 0
     (.waypointFailed "w" .raised) rfl).1,
   (start_failure_policy ⟨false, 0, [], ⟨"out", []⟩, [⟨"w", fun _ => .raise⟩]⟩ 0
     (.waypointFailed "w" .raised) rfl).2⟩

/-- C9 counterexample: with the working root `w`, source `w/a/b` and
destination `w/a`, the destination is a strict ancestor of the source, yet
the constructor's path validation accepts the configuration — contradicting
the claim that an ancestor destination fails construction. -/
theorem validatePaths_ancestor_cex :
    validatePaths ["w"] ["w", "a", "b"] ["w", "a"] = .ok () ∧
    (["w", "a"] : FsPath) ≠ ["w", "a", "b"] ∧
    subdir ["w", "a"] ["w", "a", "b"] = true :=
  ⟨rfl, by decide, by decide⟩

/-- C9 (amended): construction's path validation succeeds exactly when both
source and destination resolve inside the working root, the destination
does not equal the source, and the destination does not nest inside
(descend from) the source; a destination that is a strict ancestor of the
source is accepted. -/
theorem validatePaths_iff (cwd srcDir destDir : FsPath) :
    validatePaths cwd srcDir destDir = .ok () ↔
      (subdir cwd srcDir = true ∧ subdir cwd destDir = true ∧
       destDir ≠ srcDir ∧ subdir srcDir destDir = false) := by
  unfold validatePaths
  constructor
  · intro h
    by_cases h1 : subdir cwd srcDir = false
    · rw [if_pos h1] at h
      exact absurd h (by simp)
    · rw [if_neg h1] at h
      by_cases h2 : subdir cwd destDir = false
      · rw [if_pos h2] at h
        exact absurd h (by simp)
      · rw [if_neg h2] at h
        by_cases h3 : destDir = srcDir ∨ subdir srcDir destDir = true
        · rw [if_pos h3] at h
          exact absurd h (by simp)
        · rw [if_neg h3] at h
          push_neg at h3
          exact ⟨by simpa using h1, by simpa using h2, h3.1, by simpa using h3.2⟩
  · rintro ⟨h1, h2, h3, h4⟩
    rw [if_neg (by simp [h1]), if_neg (by simp [h2])]
    rw [if_neg ?_]
    rintro (hh | hh)
    · exact h3 hh
    · rw [h4] at hh
      exact Bool.noConfusion hh

theorem assocRemove_of_not_mem {α : Type} {m : List (String × α)} {f : String}
    (h : f ∉ m.map Prod.fst) : assocRemove m f = m := by
  unfold assocRemove
  rw [List.filter_eq_self]
  intro e he
  have hm : e.1 ∈ m.map Prod.fst := List.mem_map_of_mem Prod.fst he
  simp only [decide_eq_true_eq]
  exact fun hef => h (hef ▸ hm)

theorem assocGet_assocRemove_self {α : Type} (m : List (String × α)) (f : String) :
    assocGet (assocRemove m f) f = none := by
  rw [assocGet_eq_none]
  intro hmem
  obtain ⟨e, he, hef⟩ := List.mem_map.mp hmem
  have := List.mem_filter.mp he
  simp only [decide_eq_true_eq] at this
  exact this.2 hef

theorem map_set_id {α : Type} {rest : List (String × α)} {f : String} {v : α}
    (h : f ∉ rest.map Prod.fst) :
    rest.map (fun e => if e.1 = f then (f, v) else e) = rest := by
  induction rest with
  | nil => rfl
  | cons e r ih =>
    simp only [List.map_cons] at h ⊢
    rw [if_neg (fun hef => h (by simp [← hef])), ih (fun hm => h (by simp [hm]))]

theorem storeSum_remove {m : ContentStore} {f : String}
    (hnd : (storeKeys m).Nodup) :
    (storeSum (assocRemove m f) : Int) =
      (storeSum m : Int) - (match storeGet m f with
        | some b => (b.length : Int)
        | none => 0) := by
  induction m with
  | nil => simp [assocRemove, storeSum, storeGet, assocGet]
  | cons e rest ih =>
    obtain ⟨k, w⟩ := e
    simp only [storeKeys, List.map_cons, List.nodup_cons] at hnd
    by_cases hk : k = f
    · subst hk
      have hrm : assocRemove rest k = rest := assocRemove_of_not_mem hnd.1
      have hhead : assocRemove ((k, w) :: rest) k = rest := by
        unfold assocRemove
        rw [List.filter_cons]
        simp only [decide_eq_true_eq]
        rw [if_neg (by simp)]
        exact hrm
      rw [hhead]
      have hget : storeGet ((k, w) :: rest) k = some w := by
        simp [storeGet, assocGet]
      rw [hget]
      simp [storeSum]
    · have hhead : assocRemove ((k, w) :: rest) f = (k, w) :: assocRemove rest f := by
        unfold assocRemove
        rw [List.filter_cons]
        simp only [decide_eq_true_eq]
        rw [if_pos (by simp [hk])]
      rw [hhead]
      have hget : storeGet ((k, w) :: rest) f = storeGet rest f := by
        simp [storeGet, assocGet, hk]
      rw [hget]
      have ih2 := ih hnd.2
      cases hg : storeGet rest f with
      | none =>
        rw [hg] at ih2
        simp only [storeSum, List.map_cons, List.sum_cons] at ih2 ⊢
        push_cast at ih2 ⊢
        omega
      | some b =>
        rw [hg] at ih2
        simp only [storeSum, List.map_cons, List.sum_cons] at ih2 ⊢
        push_cast at ih2 ⊢
        omega

theorem storeSum_append_single (m : ContentStore) (f : String) (v : Bytes) :
    storeSum (m ++ [(f, v)]) = storeSum m + v.length := by
  simp [storeSum]

theorem storeSum_map_set {m : ContentStore} {f : String} {v b0 : Bytes}
    (hnd : (storeKeys m).Nodup) (hg : storeGet m f = some b0) :
    (storeSum (m.map (fun e => if e.1 = f then (f, v) else e)) : Int) =
      (storeSum m : Int) - b0.length + v.length := by
  induction m with
  | nil => simp [storeGet, assocGet] at hg
  | cons e rest ih =>
    obtain ⟨k, w⟩ := e
    simp only [storeKeys, List.map_cons, List.nodup_cons] at hnd
    by_cases hk : k = f
    · subst hk
      have hw : w = b0 := by
        simpa [storeGet, assocGet] using hg
      subst hw
      simp only [List.map_cons, if_true]
      rw [map_set_id hnd.1]
      simp only [storeSum, List.map_cons, List.sum_cons]
      push_cast
      ring
    · have hget : storeGet rest f = some b0 := by
        simpa [storeGet, assocGet, hk] using hg
      have ih2 := ih hnd.2 hget
      simp only [List.map_cons]
      rw [show (if (k, w).1 = f then (f, v) else (k, w)) = (k, w) from if_neg hk]
      simp only [storeSum, List.map_cons, List.sum_cons] at ih2 ⊢
      push_cast at ih2 ⊢
      omega

theorem storeSum_set {m : ContentStore} {f : String} {v : Bytes}
    (hnd : (storeKeys m).Nodup) :
    (storeSum (assocSet m f v) : Int) =
      (storeSum m : Int) - (match storeGet m f with
        | some b => (b.length : Int)
        | none => 0) + v.length := by
  cases hg : storeGet m f with
  | none =>
    have hs : (assocGet m f).isSome ≠ true := by
      rw [show assocGet m f = storeGet m f from rfl, hg]
      simp
    unfold assocSet
    rw [if_neg hs, storeSum_append_single]
    push_cast
    ring
  | some b0 =>
    have hs : (assocGet m f).isSome = true := by
      rw [show assocGet m f = storeGet m f from rfl, hg]
      rfl
    unfold assocSet
    rw [if_pos hs, storeSum_map_set hnd hg]

theorem handleWrite_abort_none (st : SourceState) (f : String) (b1 : Bytes) (now : Nat)
    (h0 : storeGet st.files f = none)
    (hgt : st.size - (0 : Int) + b1.length > st.limit) :
    handleWrite st f b1 now =
      (⟨st.files, st.size - (0 : Int) + b1.length, st.limit,
        assocSet st.lastTouched f now⟩, .error .sizeLimitExceeded) := by
  rw [handleWrite]
  dsimp only
  rw [h0]
  rw [if_pos (by simp)]
  dsimp only
  rw [if_pos hgt]

theorem loadDirAux_sum :
    ∀ (entries : List (String × Bytes)) (acc : ContentStore) (size limit : Int)
      (files : ContentStore) (sz : Int),
      (storeKeys acc).Nodup →
      (∀ e ∈ entries, e.1 ∉ storeKeys acc) →
      (entries.map Prod.fst).Nodup →
      size = (storeSum acc : Int) →
      loadDirAux entries acc size limit = .ok (files, sz) →
      sz = (storeSum files : Int) := by
  intro entries
  induction entries with
  | nil =>
    intro acc size limit files sz hnd hdisj hend hsize h
    rw [loadDirAux] at h
    injection h with h
    have h1 : acc = files := congrArg Prod.fst h
    have h2 : size = sz := congrArg Prod.snd h
    rw [← h2, ← h1]
    exact hsize
  | cons e rest ih =>
    intro acc size limit files sz hnd hdisj hend hsize h
    obtain ⟨f0, c0⟩ := e
    rw [loadDirAux] at h
    by_cases hgt : size + (c0.length : Int) > limit
    · rw [if_pos hgt] at h
      exact absurd h (by simp)
    · rw [if_neg hgt] at h
      have hf0 : f0 ∉ storeKeys acc := hdisj (f0, c0) (by simp)
      have hset : assocSet acc f0 c0 = acc ++ [(f0, c0)] := by
        unfold assocSet
        rw [if_neg (by rw [assocGet_eq_none.mpr hf0]; simp)]
      simp only [List.map_cons, List.nodup_cons] at hend
      refine ih (assocSet acc f0 c0) (size + c0.length) limit files sz ?_ ?_ hend.2 ?_ h
      · rw [hset]
        have : storeKeys (acc ++ [(f0, c0)]) = storeKeys acc ++ [f0] := by
          simp [storeKeys]
        rw [this]
        rw [List.nodup_append]
        exact ⟨hnd, by simp, by simpa [List.disjoint_singleton] using hf0⟩
      · intro e2 he2
        rw [hset]
        have hk : storeKeys (acc ++ [(f0, c0)]) = storeKeys acc ++ [f0] := by
          simp [storeKeys]
        rw [hk]
        intro hmem
        rcases List.mem_append.mp hmem with hm | hm
        · exact hdisj e2 (List.mem_cons_of_mem _ he2) hm
        · have he2f : e2.1 = f0 := by simpa using hm
          exact hend.1 (he2f ▸ List.mem_map_of_mem Prod.fst he2)
      · rw [hset, storeSum_append_single]
        push_cast
        rw [hsize]

theorem handleDelete_not_mem (st : SourceState) (f : String)
    (h : f ∉ storeKeys st.files) :
    handleDelete st f = ({ st with lastTouched := assocRemove st.lastTouched f }, true) := by
  rw [handleDelete]
  dsimp only
  rw [assocRemove_of_not_mem h]
  rw [if_pos (storeEquals_refl _)]

theorem handleDelete_mem (st : SourceState) (f : String) (b : Bytes)
    (hg : storeGet st.files f = some b) :
    handleDelete st f =
      (⟨assocRemove st.files f, st.size - (b.length : Int), st.limit,
        assocRemove st.lastTouched f⟩, true) := by
  rw [handleDelete]
  dsimp only
  have hne : storeEquals st.files (assocRemove st.files f) = false := by
    cases hsE : storeEquals st.files (assocRemove st.files f) with
    | false => rfl
    | true =>
      have h2 := storeEquals_iff.mp hsE f
      rw [hg, show storeGet (assocRemove st.files f) f = none from
        assocGet_assocRemove_self _ _] at h2
      exact Option.noConfusion h2
  rw [hne]
  rw [if_neg (by simp)]
  rw [hg]
  rfl

/-- C10 counterexample: on an add/modify event whose re-read fails with
"not found", the handler removes the path from the store without adjusting
the byte total (Source.js only does `priv.files.remove` in the ENOENT
branch), so a state satisfying the size invariant stops satisfying it. -/
theorem source_size_invariant_cex :
    sizeInvariant ⟨[("a", [7])], 1, 100, []⟩ ∧
    ¬ sizeInvariant (handleMissing ⟨[("a", [7])], 1, 100, []⟩ "a").1 := by
  constructor
  · unfold sizeInvariant
    decide
  · unfold sizeInvariant
    decide

/-- C10 (amended): the byte-total invariant `size = Σ lengths(files)` holds
after priming and is preserved by delete events and by add/modify events
whose re-read succeeds (changed or identical, when no size-limit abort
occurs); it is violated by the two exceptional add/modify paths: an ENOENT
re-read of a tracked path leaves `size` above the store total by exactly
that path's length, and a size-limit abort leaves the store unchanged while
`size` already includes the new content. -/
theorem source_size_invariant (entries : List (String × Bytes)) (limit : Int)
    (files : ContentStore) (sz : Int) (st : SourceState) (f : String) (c : Bytes)
    (now : Nat) (b0 : Bytes) :
    ((entries.map Prod.fst).Nodup → loadDirectory entries limit = .ok (files, sz) →
      sz = (storeSum files : Int)) ∧
    (sizeInvariant st → (storeKeys st.files).Nodup →
      sizeInvariant (handleDelete st f).1) ∧
    (sizeInvariant st → (storeKeys st.files).Nodup →
      ∀ em, (handleWrite st f c now).2 = .ok em →
        sizeInvariant (handleWrite st f c now).1) ∧
    (sizeInvariant st → storeGet st.files f = some b0 → (storeKeys st.files).Nodup →
      (handleMissing st f).1.size =
        (storeSum (handleMissing st f).1.files : Int) + b0.length) ∧
    (sizeInvariant st → storeGet st.files f = some b0 →
      (handleWrite st f c now).2 = .error .sizeLimitExceeded →
      (handleWrite st f c now).1.files = st.files ∧
      (handleWrite st f c now).1.size =
        (storeSum st.files : Int) - b0.length + c.length) := by
  refine ⟨?_, ?_, ?_, ?_, ?_⟩
  · intro hnd h
    exact loadDirAux_sum entries [] 0 limit files sz (by simp [storeKeys])
      (by simp [storeKeys]) hnd (by simp [storeSum]) h
  · intro hinv hnd
    by_cases hmem : f ∈ storeKeys st.files
    · obtain ⟨b, hb⟩ := Option.isSome_iff_exists.mp (assocGet_isSome_iff.mpr hmem)
      have hb2 : storeGet st.files f = some b := hb
      rw [handleDelete_mem st f b hb2]
      show st.size - (b.length : Int) = (storeSum (assocRemove st.files f) : Int)
      rw [storeSum_remove hnd, hb2]
      rw [show st.size = (storeSum st.files : Int) from hinv]
    · rw [handleDelete_not_mem st f hmem]
      show st.size = (storeSum st.files : Int)
      exact hinv
  · intro hinv hnd em hok
    by_cases hid : storeGet st.files f = some c
    · rw [handleWrite_identical st f c now hid]
      show st.size = (storeSum st.files : Int)
      exact hinv
    · cases hg : storeGet st.files f with
      | some b1 =>
        have hnec : c ≠ b1 := fun hh => hid (hh ▸ hg)
        by_cases hgt : st.size - (b1.length : Int) + c.length > st.limit
        · rw [handleWrite_abort_some st f b1 c now hg hnec hgt] at hok
          exact absurd hok (by simp)
        · rw [handleWrite_changed_some st f b1 c now hg hnec (not_lt.mp hgt)]
          show st.size - (b1.length : Int) + c.length =
            (storeSum (assocSet st.files f c) : Int)
          rw [storeSum_set hnd, hg,
            show st.size = (storeSum st.files : Int) from hinv]
      | none =>
        by_cases hgt : st.size - (0 : Int) + c.length > st.limit
        · rw [handleWrite_abort_none st f c now hg hgt] at hok
          exact absurd hok (by simp)
        · rw [handleWrite_changed_none st f c now hg (not_lt.mp hgt)]
          show st.size - (0 : Int) + c.length =
            (storeSum (assocSet st.files f c) : Int)
          rw [storeSum_set hnd, hg,
            show st.size = (storeSum st.files : Int) from hinv]
  · intro hinv hg hnd
    show st.size = (storeSum (assocRemove st.files f) : Int) + b0.length
    rw [storeSum_remove hnd, hg, show st.size = (storeSum st.files : Int) from hinv]
    ring
  · intro hinv hg herr
    by_cases hid : storeGet st.files f = some c
    · rw [handleWrite_identical st f c now hid] at herr
      exact absurd herr (by simp)
    · have hnec : c ≠ b0 := fun hh => hid (hh ▸ hg)
      by_cases hgt : st.size - (b0.length : Int) + c.length > st.limit
      · rw [handleWrite_abort_some st f b0 c now hg hnec hgt]
        exact ⟨rfl, by rw [show st.size = (storeSum st.files : Int) from hinv]⟩
      · rw [handleWrite_changed_some st f b0 c now hg hnec (not_lt.mp hgt)] at herr
        exact absurd herr (by simp)

/-- C10 witness: the invariant after a concrete prime and across a concrete
delete event. -/
theorem source_size_invariant_witness :
    ((([("a", [7])] : List (String × Bytes)).map Prod.fst).Nodup ∧
     loadDirectory [("a", [7])] 100 = .ok ([("a", [7])], 1) ∧
     sizeInvariant ⟨[("a", [7])], 1, 100, []⟩ ∧
     (storeKeys ([("a", [7])] : ContentStore)).Nodup) ∧
    ((1 : Int) = (storeSum [("a", [7])] : Int) ∧
     sizeInvariant (handleDelete ⟨[("a", [7])], 1, 100, []⟩ "a").1) :=
  ⟨⟨by decide, rfl, by unfold sizeInvariant; decide, by decide⟩,
   (source_size_invariant [("a", [7])] 100 [("a", [7])] 1
      ⟨[("a", [7])], 1, 100, []⟩ "a" [] 0 []).1 (by decide) rfl,
   (source_size_invariant [("a", [7])] 100 [("a", [7])] 1
      ⟨[("a", [7])], 1, 100, []⟩ "a" [] 0 []).2.1
     (by unfold sizeInvariant; decide) (by decide)⟩
